import Mathlib

/-!
Verification of the block-header codec and Merkle engine of
`src/nheqminer/primitives/block.h`.

The header file fixes the field sets, the field order of each encoding, and
the null/clear semantics.  The byte-level primitives (little-endian scalars,
raw 32-byte hashes, the compact size length marker of a byte vector) live in
the repository's `serialize.h`/`uint256.h`, which are not part of the visible
source; they are modelled from the spec's wire table (spec section 6) and the
Bitcoin-style compact size convention the repository uses.  The Merkle engine
(`BuildMerkleTree`, `GetMerkleBranch`, `CheckMerkleBranch`) is declared in
`block.h` but defined in the repository's `block.cpp`, also not visible; it
is modelled from the spec (section 4.2).
-/

set_option autoImplicit false
set_option maxRecDepth 8000

namespace BlockSpec

/-! ## Definitions -/

/-! ### Byte-level serialization primitives

Modelled from the spec: `serialize.h` is not in the visible source.  Scalars
are little-endian fixed-width byte sequences, hashes are 32 raw bytes, and
variable-length byte vectors carry a Bitcoin-style compact size length
marker.  A byte is a `Nat` (valid encodings use values `< 256`). -/

/-- Little-endian encoding of `n` in `w` bytes (truncating above `256^w`). -/
def serLE : Nat → Nat → List Nat
  | 0, _ => []
  | w + 1, n => n % 256 :: serLE w (n / 256)

/-- Little-endian value of a byte list. -/
def deserLE (bs : List Nat) : Nat :=
  bs.foldr (fun b acc => b + 256 * acc) 0

/-- Two's-complement encoding of a signed 32-bit value in 4 bytes. -/
def serInt32 (v : Int) : List Nat :=
  serLE 4 ((v % (2 ^ 32 : Int)).toNat)

/-- Bitcoin-style compact size marker for a length `n`. -/
def serCompactSize (n : Nat) : List Nat :=
  if n < 253 then [n]
  else if n < 2 ^ 16 then 253 :: serLE 2 n
  else if n < 2 ^ 32 then 254 :: serLE 4 n
  else 255 :: serLE 8 n

/-- Decode failures, per the spec's error taxonomy (section 7). -/
inductive DecodeError where
  | TruncatedInput
  | MalformedLength
deriving DecidableEq

/-- Consume `w` raw bytes from the front of the input. -/
def readBytes (w : Nat) (bs : List Nat) : Except DecodeError (List Nat × List Nat) :=
  if bs.length < w then .error .TruncatedInput else .ok (bs.take w, bs.drop w)

/-- Consume a `w`-byte little-endian scalar. -/
def readLE (w : Nat) (bs : List Nat) : Except DecodeError (Nat × List Nat) := do
  let (chunk, rest) ← readBytes w bs
  .ok (deserLE chunk, rest)

/-- Consume a 4-byte two's-complement signed scalar. -/
def readInt32 (bs : List Nat) : Except DecodeError (Int × List Nat) := do
  let (n, rest) ← readLE 4 bs
  .ok (if n < 2 ^ 31 then (n : Int) else (n : Int) - 2 ^ 32, rest)

/-- Consume a compact size length marker. -/
def readCompactSize : List Nat → Except DecodeError (Nat × List Nat)
  | [] => .error .TruncatedInput
  | b :: bs =>
    if b < 253 then .ok (b, bs)
    else if b = 253 then readLE 2 bs
    else if b = 254 then readLE 4 bs
    else readLE 8 bs

/-- Consume a byte vector preceded by its compact size length marker. -/
def readVarBytes (bs : List Nat) : Except DecodeError (List Nat × List Nat) := do
  let (len, rest) ← readCompactSize bs
  readBytes len rest

/-! ### The primary header (`CBlockHeader`, block.h lines 22-80)

Fields in declaration order: `nVersion`, `hashPrevBlock`, `hashMerkleRoot`,
`hashReserved`, `nTime`, `nBits`, `nNonce`, `nSolution`.  256-bit hashes are
`Nat` values below `2 ^ 256`, serialized as 32 raw little-endian bytes; the
solution is a byte list. -/

structure CBlockHeader where
  nVersion : Int
  hashPrevBlock : Nat
  hashMerkleRoot : Nat
  hashReserved : Nat
  nTime : Nat
  nBits : Nat
  nNonce : Nat
  nSolution : List Nat
deriving DecidableEq

/-- `CBlockHeader::CURRENT_VERSION = 4` (block.h line 27). -/
def CURRENT_VERSION : Int := 4

/-- `CBlockHeader::HEADER_SIZE = 4 + 32 + 32 + 32 + 4 + 4 + 32` (block.h
line 26), the fixed-field region excluding only the Equihash solution. -/
def HEADER_SIZE : Nat := 4 + 32 + 32 + 32 + 4 + 4 + 32

/-- `CBlockHeader::SetNull` (block.h lines 57-67): version reset to
`CURRENT_VERSION`, every other field zeroed/emptied. -/
def CBlockHeader.SetNull (_h : CBlockHeader) : CBlockHeader :=
  { nVersion := CURRENT_VERSION
    hashPrevBlock := 0
    hashMerkleRoot := 0
    hashReserved := 0
    nTime := 0
    nBits := 0
    nNonce := 0
    nSolution := [] }

/-- The header produced by the default constructor (`CBlockHeader()` calls
`SetNull()`). -/
def nullHeader : CBlockHeader :=
  CBlockHeader.SetNull ⟨0, 0, 0, 0, 0, 0, 0, []⟩

/-- `CBlockHeader::IsNull` (block.h lines 69-72): `nBits == 0`. -/
def CBlockHeader.IsNull (h : CBlockHeader) : Bool :=
  h.nBits == 0

/-- `CBlockHeader::SerializationOp` (block.h lines 44-55) in write mode:
version, the three hashes, time, bits, nonce, then the length-marked
solution, in that order. -/
def encodeFull (h : CBlockHeader) : List Nat :=
  serInt32 h.nVersion ++ serLE 32 h.hashPrevBlock ++ serLE 32 h.hashMerkleRoot ++
    serLE 32 h.hashReserved ++ serLE 4 h.nTime ++ serLE 4 h.nBits ++
    serLE 32 h.nNonce ++ (serCompactSize h.nSolution.length ++ h.nSolution)

/-- `CEquihashInput::SerializationOp` (block.h lines 159-168) in write mode:
version, the three hashes, time and bits only — the nonce and solution are
omitted. -/
def encodeRestricted (h : CBlockHeader) : List Nat :=
  serInt32 h.nVersion ++ serLE 32 h.hashPrevBlock ++ serLE 32 h.hashMerkleRoot ++
    serLE 32 h.hashReserved ++ serLE 4 h.nTime ++ serLE 4 h.nBits

/-- `CBlockHeader::SerializationOp` in read mode: the same fields consumed in
the same order. -/
def decodeFull (bs : List Nat) : Except DecodeError CBlockHeader := do
  let (v, bs) ← readInt32 bs
  let (p, bs) ← readLE 32 bs
  let (m, bs) ← readLE 32 bs
  let (r, bs) ← readLE 32 bs
  let (t, bs) ← readLE 4 bs
  let (b, bs) ← readLE 4 bs
  let (nn, bs) ← readLE 32 bs
  let (sol, _) ← readVarBytes bs
  .ok ⟨v, p, m, r, t, b, nn, sol⟩

/-- A header whose fields fit their declared machine widths: signed 32-bit
version, 256-bit hashes and nonce, unsigned 32-bit time and bits, byte-valued
solution entries with a length below the compact size ceiling. -/
def ValidHeader (h : CBlockHeader) : Prop :=
  -2 ^ 31 ≤ h.nVersion ∧ h.nVersion < 2 ^ 31 ∧
    h.hashPrevBlock < 2 ^ 256 ∧ h.hashMerkleRoot < 2 ^ 256 ∧
    h.hashReserved < 2 ^ 256 ∧ h.nTime < 2 ^ 32 ∧ h.nBits < 2 ^ 32 ∧
    h.nNonce < 2 ^ 256 ∧ h.nSolution.length < 2 ^ 64 ∧
    ∀ b ∈ h.nSolution, b < 256

instance (h : CBlockHeader) : Decidable (ValidHeader h) := by
  unfold ValidHeader
  infer_instance

/-- The spec section 8 scenario header: `version=4`, zero `prevBlockHash` and
`reservedHash`, a given `merkleRoot`, `time=1600000000`, `bits=0x1d00ffff`,
`nonce=1`, empty solution. -/
def scenarioHeader (mr : Nat) : CBlockHeader :=
  { nVersion := 4
    hashPrevBlock := 0
    hashMerkleRoot := mr
    hashReserved := 0
    nTime := 1600000000
    nBits := 0x1d00ffff
    nNonce := 1
    nSolution := [] }

/-! ### Blocks (`CBlock`, block.h lines 83-141) -/

/-- Modelled from the spec: `CTransaction` lives in the repository's
`primitives/transaction.h`, not in the visible source; the spec treats
transactions as opaque hashable values, carried here as one hash field. -/
structure CTransaction where
  txid : Nat
deriving DecidableEq

/-- `CBlock`: the header fields (inherited from `CBlockHeader`), the
transaction list `vtx`, and the memory-only Merkle tree cache
`vMerkleTree`. -/
structure CBlock where
  nVersion : Int
  hashPrevBlock : Nat
  hashMerkleRoot : Nat
  hashReserved : Nat
  nTime : Nat
  nBits : Nat
  nNonce : Nat
  nSolution : List Nat
  vtx : List CTransaction
  vMerkleTree : List Nat
deriving DecidableEq

/-- `CBlock::CBlock(const CBlockHeader&)` (block.h lines 97-101): `SetNull()`
clears every field, then the header part is overwritten from `header`. -/
def CBlock.ofHeader (header : CBlockHeader) : CBlock :=
  { nVersion := header.nVersion
    hashPrevBlock := header.hashPrevBlock
    hashMerkleRoot := header.hashMerkleRoot
    hashReserved := header.hashReserved
    nTime := header.nTime
    nBits := header.nBits
    nNonce := header.nNonce
    nSolution := header.nSolution
    vtx := []
    vMerkleTree := [] }

/-- `CBlock::GetBlockHeader` (block.h lines 118-130): copies the eight header
fields into a fresh `CBlockHeader`. -/
def CBlock.GetBlockHeader (b : CBlock) : CBlockHeader :=
  { nVersion := b.nVersion
    hashPrevBlock := b.hashPrevBlock
    hashMerkleRoot := b.hashMerkleRoot
    hashReserved := b.hashReserved
    nTime := b.nTime
    nBits := b.nBits
    nNonce := b.nNonce
    nSolution := b.nSolution }

/-! ### The Merkle engine

Modelled from the spec (section 4.2): `CBlock::BuildMerkleTree`,
`CBlock::GetMerkleBranch` and `CBlock::CheckMerkleBranch` are declared in
block.h (lines 136-139) but defined in the repository's `block.cpp`, which is
not in the visible source.  The digest over two child hashes is an abstract
combine function `f`; the degenerate empty-leaf root (the digest of the empty
string) is the abstract value `emptyRoot`. -/

/-- One level-up step: element `i` (even) is combined with element
`min (i+1) (n-1)`, so an odd-length level pairs its last element with
itself. -/
def nextLevel {α : Type} (f : α → α → α) : List α → List α
  | [] => []
  | [a] => [f a a]
  | a :: b :: rest => f a b :: nextLevel f rest

/-- Whether a level contains an even index `i` with `level[i] = level[i+1]`
(the Bitcoin-style duplicate-leaf mutation pattern). -/
def levelMutated {α : Type} [DecidableEq α] : List α → Bool
  | a :: b :: rest => if a = b then true else levelMutated rest
  | _ => false

/-- Fuel-bounded level construction; the fuel is an upper bound on the
number of halving steps, so `buildLevels` below always supplies enough. -/
def buildLevelsAux {α : Type} (f : α → α → α) : Nat → List α → List (List α)
  | 0, l => [l]
  | fuel + 1, l => if l.length ≤ 1 then [l] else l :: buildLevelsAux f fuel (nextLevel f l)

/-- All levels of the Merkle tree, from the leaves up to the single-element
root level (the retained `fullTree` of the spec). -/
def buildLevels {α : Type} (f : α → α → α) (l : List α) : List (List α) :=
  buildLevelsAux f l.length l

/-- The root: head of the last level. -/
def treeRoot {α : Type} [Inhabited α] : List (List α) → α
  | [] => default
  | [lvl] => lvl.headD default
  | _ :: lvl₂ :: rest => treeRoot (lvl₂ :: rest)

/-- `buildTree(leafHashes) -> (root, mutationDetected, fullTree)` (spec
section 4.2): empty leaves give the degenerate root with no levels; otherwise
all levels are built, the root is the head of the last level, and the
mutation flag records whether any level matched the duplicate pattern. -/
def buildTree {α : Type} [DecidableEq α] [Inhabited α] (f : α → α → α)
    (emptyRoot : α) (leaves : List α) : α × Bool × List (List α) :=
  if leaves.isEmpty then (emptyRoot, false, [])
  else
    (treeRoot (buildLevels f leaves), (buildLevels f leaves).any levelMutated,
      buildLevels f leaves)

/-- Merkle engine failures, per the spec's error taxonomy (section 7). -/
inductive MerkleError where
  | IndexOutOfRange
deriving DecidableEq

/-- The sibling of position `idx` in a level of length `n`: `i ± 1` clamped
per the pairing rule (the last element of an odd-length level is its own
sibling). -/
def siblingIndex (idx n : Nat) : Nat :=
  if idx % 2 = 0 then min (idx + 1) (n - 1) else idx - 1

/-- The branch walk over the retained levels: at each non-root level append
the sibling of the current position, then halve the position. -/
def branchAux {α : Type} [Inhabited α] : List (List α) → Nat → List α
  | [], _ => []
  | lvl :: rest, idx =>
    if lvl.length ≤ 1 then []
    else lvl.getD (siblingIndex idx lvl.length) default :: branchAux rest (idx / 2)

/-- `getBranch(fullTree, leafIndex)` (spec section 4.2): fails with
`IndexOutOfRange` when `leafIndex` is negative or at least the leaf count
(the length of the first level); otherwise returns the sibling walk. -/
def getBranch {α : Type} [Inhabited α] (levels : List (List α))
    (leafIndex : Int) : Except MerkleError (List α) :=
  if leafIndex < 0 ∨ (((levels.headD []).length : Int) ≤ leafIndex) then
    .error .IndexOutOfRange
  else .ok (branchAux levels leafIndex.toNat)

/-- `checkBranch(leafHash, branch, leafIndex)` (spec section 4.2): fold the
branch onto the leaf, combining on the left or right according to the parity
of the current position, halving the position at each step. -/
def checkBranch {α : Type} (f : α → α → α) : α → List α → Nat → α
  | h, [], _ => h
  | h, b :: rest, idx =>
    checkBranch f (if idx % 2 = 0 then f h b else f b h) rest (idx / 2)

/-! ### The block locator (`CBlockLocator`, block.h lines 176-205) -/

structure CBlockLocator where
  vHave : List Nat
deriving DecidableEq

/-- `CBlockLocator::IsNull` (block.h lines 201-204): `vHave.empty()`. -/
def CBlockLocator.IsNull (loc : CBlockLocator) : Bool :=
  loc.vHave.isEmpty

/-- `CBlockLocator::SetNull` (block.h lines 196-199): `vHave.clear()`. -/
def CBlockLocator.SetNull (_loc : CBlockLocator) : CBlockLocator :=
  { vHave := [] }

/-- A vector of 256-bit hashes: compact size count, then each hash as 32
bytes. -/
def serHashVector (hs : List Nat) : List Nat :=
  serCompactSize hs.length ++ (hs.map (serLE 32)).flatten

/-- `CBlockLocator::SerializationOp` (block.h lines 189-194) in write mode:
the serialization version scalar is written unless the stream type carries
the get-hash purpose bit (`SER_GETHASH`, from the missing `serialize.h`,
modelled as the Bool `forHashing`); the hash vector always follows. -/
def encodeLocator (forHashing : Bool) (serVersion : Int)
    (loc : CBlockLocator) : List Nat :=
  (if forHashing then [] else serInt32 serVersion) ++ serHashVector loc.vHave

/-! ### The legacy header (`ABlockHeader`, block.h lines 207-313)

The active fields are the aggregate `headerHash`, the nonce and the solution;
every detailed field is commented out in the source. -/

structure ABlockHeader where
  headerHash : Nat
  nNonce : Nat
  nSolution : List Nat
deriving DecidableEq

/-- `ABlockHeader::SetNull` (block.h lines 283-300): hash zeroed, nonce
zeroed, solution emptied. -/
def ABlockHeader.SetNull (_h : ABlockHeader) : ABlockHeader :=
  { headerHash := 0, nNonce := 0, nSolution := [] }

/-- Modelled from the spec: `ABlockHeader::IsNull` is commented out in
block.h (lines 302-305); the spec (sections 3 and 4.1) specifies the legacy
variant's null-check as `headerHash` emptiness. -/
def ABlockHeader.IsNull (h : ABlockHeader) : Bool :=
  h.headerHash == 0

/-- `ABlockHeader::SerializationOp` (block.h lines 261-281) in write mode:
`headerHash`, then the nonce, then the length-marked solution. -/
def AencodeFull (h : ABlockHeader) : List Nat :=
  serLE 32 h.headerHash ++ serLE 32 h.nNonce ++
    (serCompactSize h.nSolution.length ++ h.nSolution)

/-- `AEquihashInput::SerializationOp` (block.h lines 390-409) in write mode:
`headerHash` only. -/
def AencodeRestricted (h : ABlockHeader) : List Nat :=
  serLE 32 h.headerHash

/-- `ABlockHeader::SerializationOp` in read mode: the same fields consumed in
the same order. -/
def AdecodeFull (bs : List Nat) : Except DecodeError ABlockHeader := do
  let (hh, bs) ← readLE 32 bs
  let (nn, bs) ← readLE 32 bs
  let (sol, _) ← readVarBytes bs
  .ok ⟨hh, nn, sol⟩

/-- A legacy header whose fields fit their declared machine widths. -/
def AValidHeader (h : ABlockHeader) : Prop :=
  h.headerHash < 2 ^ 256 ∧ h.nNonce < 2 ^ 256 ∧ h.nSolution.length < 2 ^ 64

instance (h : ABlockHeader) : Decidable (AValidHeader h) := by
  unfold AValidHeader
  infer_instance

/-! ## Theorems -/

/-! ### Round-trip lemmas for the primitives -/

theorem serLE_length (w n : Nat) : (serLE w n).length = w := by
  induction w generalizing n with
  | zero => rfl
  | succ w ih => simp [serLE, ih]

theorem deserLE_serLE (w n : Nat) : deserLE (serLE w n) = n % 256 ^ w := by
  induction w generalizing n with
  | zero => simp [serLE, deserLE, Nat.mod_one]
  | succ w ih =>
    have h256 : (0 : Nat) < 256 := by norm_num
    simp only [serLE, deserLE, List.foldr_cons] at *
    rw [ih (n / 256)]
    rw [pow_succ, mul_comm (256 ^ w) 256, Nat.mod_mul]

theorem bind_ok {ε α β : Type} (a : α) (f : α → Except ε β) :
    (Except.ok a >>= f) = f a := rfl

theorem readBytes_append (w : Nat) (xs rest : List Nat) (h : xs.length = w) :
    readBytes w (xs ++ rest) = .ok (xs, rest) := by
  subst h
  simp [readBytes, List.take_left, List.drop_left]

theorem readLE_serLE (w n : Nat) (rest : List Nat) (h : n < 256 ^ w) :
    readLE w (serLE w n ++ rest) = .ok (n, rest) := by
  rw [readLE, readBytes_append w (serLE w n) rest (serLE_length w n), bind_ok]
  simp [deserLE_serLE, Nat.mod_eq_of_lt h]

theorem readInt32_serInt32 (v : Int) (rest : List Nat)
    (h1 : -2 ^ 31 ≤ v) (h2 : v < 2 ^ 31) :
    readInt32 (serInt32 v ++ rest) = .ok (v, rest) := by
  have e31 : (2 : Int) ^ 31 = 2147483648 := by norm_num
  have e32 : (2 : Int) ^ 32 = 4294967296 := by norm_num
  have e31n : (2 : Nat) ^ 31 = 2147483648 := by norm_num
  have e4 : (256 : Nat) ^ 4 = 4294967296 := by norm_num
  rw [e31] at h1 h2
  rw [readInt32, serInt32, e32, e31n]
  have hmod : (0 : Int) ≤ v % 4294967296 := Int.emod_nonneg v (by norm_num)
  have hlt : v % 4294967296 < 4294967296 := Int.emod_lt_of_pos v (by norm_num)
  have hlt256 : (v % 4294967296).toNat < 256 ^ 4 := by rw [e4]; omega
  rw [readLE_serLE 4 _ rest hlt256, bind_ok]
  dsimp only
  by_cases hneg : v < 0
  · rw [if_neg (by omega)]
    congr 2
    omega
  · rw [if_pos (by omega)]
    congr 2
    omega

theorem readCompactSize_cons253 (l : List Nat) : readCompactSize (253 :: l) = readLE 2 l := by
  simp [readCompactSize]

theorem readCompactSize_cons254 (l : List Nat) : readCompactSize (254 :: l) = readLE 4 l := by
  simp [readCompactSize]

theorem readCompactSize_cons255 (l : List Nat) : readCompactSize (255 :: l) = readLE 8 l := by
  simp [readCompactSize]

theorem readCompactSize_serCompactSize (n : Nat) (rest : List Nat) (h : n < 2 ^ 64) :
    readCompactSize (serCompactSize n ++ rest) = .ok (n, rest) := by
  have e16 : (2 : Nat) ^ 16 = 65536 := by norm_num
  have e32 : (2 : Nat) ^ 32 = 4294967296 := by norm_num
  have e64 : (2 : Nat) ^ 64 = 18446744073709551616 := by norm_num
  rw [e64] at h
  rw [serCompactSize, e16, e32]
  by_cases h1 : n < 253
  · rw [if_pos h1]
    simp [readCompactSize, h1]
  · rw [if_neg h1]
    by_cases h2 : n < 65536
    · rw [if_pos h2, List.cons_append, readCompactSize_cons253]
      exact readLE_serLE 2 n rest (by norm_num; omega)
    · rw [if_neg h2]
      by_cases h3 : n < 4294967296
      · rw [if_pos h3, List.cons_append, readCompactSize_cons254]
        exact readLE_serLE 4 n rest (by norm_num; omega)
      · rw [if_neg h3, List.cons_append, readCompactSize_cons255]
        exact readLE_serLE 8 n rest (by norm_num; omega)

theorem readVarBytes_append (sol rest : List Nat) (h : sol.length < 2 ^ 64) :
    readVarBytes ((serCompactSize sol.length ++ sol) ++ rest) = .ok (sol, rest) := by
  rw [readVarBytes, List.append_assoc,
    readCompactSize_serCompactSize sol.length (sol ++ rest) h, bind_ok]
  exact readBytes_append sol.length sol rest rfl

theorem readVarBytes_exact (sol : List Nat) (h : sol.length < 2 ^ 64) :
    readVarBytes (serCompactSize sol.length ++ sol) = .ok (sol, []) := by
  have := readVarBytes_append sol [] h
  rwa [List.append_nil] at this

/-! ### Header codec facts -/

theorem decodeFull_encodeFull (h : CBlockHeader) (hv : ValidHeader h) :
    decodeFull (encodeFull h) = .ok h := by
  obtain ⟨h1, h2, h3, h4, h5, h6, h7, h8, h9, -⟩ := hv
  have e256 : (2 : Nat) ^ 256 = 256 ^ 32 := by norm_num
  have e32n : (2 : Nat) ^ 32 = 256 ^ 4 := by norm_num
  rw [e256] at h3 h4 h5 h8
  rw [e32n] at h6 h7
  rw [encodeFull, decodeFull]
  simp only [List.append_assoc]
  rw [readInt32_serInt32 _ _ h1 h2, bind_ok]
  dsimp only
  rw [readLE_serLE 32 _ _ h3, bind_ok]
  dsimp only
  rw [readLE_serLE 32 _ _ h4, bind_ok]
  dsimp only
  rw [readLE_serLE 32 _ _ h5, bind_ok]
  dsimp only
  rw [readLE_serLE 4 _ _ h6, bind_ok]
  dsimp only
  rw [readLE_serLE 4 _ _ h7, bind_ok]
  dsimp only
  rw [readLE_serLE 32 _ _ h8, bind_ok]
  dsimp only
  rw [readVarBytes_exact _ h9, bind_ok]

theorem encodeFull_eq_restricted_append (h : CBlockHeader) :
    encodeFull h = encodeRestricted h ++
      (serLE 32 h.nNonce ++ (serCompactSize h.nSolution.length ++ h.nSolution)) := by
  simp only [encodeFull, encodeRestricted, List.append_assoc]

theorem serInt32_length (v : Int) : (serInt32 v).length = 4 :=
  serLE_length 4 _

theorem encodeRestricted_length (h : CBlockHeader) :
    (encodeRestricted h).length = 108 := by
  simp [encodeRestricted, serInt32_length, serLE_length, List.length_append]

theorem encodeRestricted_take (h : CBlockHeader) :
    (encodeFull h).take 108 = encodeRestricted h := by
  rw [encodeFull_eq_restricted_append, ← encodeRestricted_length h, List.take_left]

theorem encodeFull_length (h : CBlockHeader) :
    (encodeFull h).length =
      HEADER_SIZE + (serCompactSize h.nSolution.length).length + h.nSolution.length := by
  simp [encodeFull, HEADER_SIZE, serInt32_length, serLE_length, List.length_append]
  omega

/-! ### Claim C1 -/

/-- C1: for every valid header `h`, decoding the full encoding of `h` yields
`h` back — the full encoding writes version, prevBlockHash, merkleRoot,
reservedHash, time, bits, nonce and the length-marked solution in that fixed
order, and `decodeFull` inverts it exactly. -/
theorem C1_roundtrip (h : CBlockHeader) (hv : ValidHeader h) :
    decodeFull (encodeFull h) = .ok h :=
  decodeFull_encodeFull h hv

/-- C1 witness: the round-trip evaluated at the freshly constructed null
header. -/
theorem C1_roundtrip_witness :
    ValidHeader nullHeader ∧ decodeFull (encodeFull nullHeader) = .ok nullHeader :=
  ⟨by decide, C1_roundtrip nullHeader (by decide)⟩

/-! ### Claim C2 -/

/-- C2 counterexample: at the null header the restricted encoding is not the
first 140 bytes of the full encoding — the restricted encoding is only 108
bytes long, because `HEADER_SIZE = 140` already includes the 32-byte nonce
that `CEquihashInput` omits. -/
theorem C2_counterexample :
    ¬ encodeRestricted nullHeader = (encodeFull nullHeader).take 140 := by
  decide

/-- C2 (amended): for every header `h`, the restricted encoding of `h` is
byte-identical to the first 108 bytes of the full encoding — the same fields
in the same byte representation, stopping just before the nonce. -/
theorem C2_restricted_is_first_108 (h : CBlockHeader) :
    encodeRestricted h = (encodeFull h).take 108 ∧
      (encodeRestricted h).length = 108 :=
  ⟨(encodeRestricted_take h).symm, encodeRestricted_length h⟩

/-! ### Claim C5 -/

/-- C5: `SetNull` resets any header to the canonical null value, with the
version field set to `CURRENT_VERSION = 4` and every other field
zeroed/emptied; the result satisfies `IsNull`; and for every header `IsNull`
holds exactly when `nBits = 0`, regardless of all other fields. -/
theorem C5_setNull_isNull (h : CBlockHeader) :
    h.SetNull = ⟨CURRENT_VERSION, 0, 0, 0, 0, 0, 0, []⟩ ∧
      CURRENT_VERSION = 4 ∧
      h.SetNull.IsNull = true ∧
      (h.IsNull = true ↔ h.nBits = 0) := by
  refine ⟨rfl, rfl, rfl, ?_⟩
  simp [CBlockHeader.IsNull]

/-! ### Claim C6 -/

/-- C6 counterexample: the spec scenario header (zero merkleRoot instance)
encodes to 141 bytes, not 172. -/
theorem C6_counterexample :
    (encodeFull (scenarioHeader 0)).length = 141 ∧
      ¬ (encodeFull (scenarioHeader 0)).length = 172 := by
  decide

/-- C6 (amended): for every in-range merkleRoot, the scenario header
(version 4, zero prevBlockHash and reservedHash, time 1600000000, bits
0x1d00ffff, nonce 1, empty solution) encodes under `encodeFull` to exactly
141 bytes — the 140 fixed-field bytes, which already include the 32-byte
nonce, plus the 1-byte zero-length solution marker — and decodes back to the
identical header value. -/
theorem C6_scenario (mr : Nat) (hmr : mr < 2 ^ 256) :
    (encodeFull (scenarioHeader mr)).length = HEADER_SIZE + 1 ∧
      (encodeFull (scenarioHeader mr)).length = 141 ∧
      decodeFull (encodeFull (scenarioHeader mr)) = .ok (scenarioHeader mr) := by
  have hval : ValidHeader (scenarioHeader mr) :=
    ⟨by norm_num [scenarioHeader], by norm_num [scenarioHeader],
      by norm_num [scenarioHeader], hmr, by norm_num [scenarioHeader],
      by norm_num [scenarioHeader], by norm_num [scenarioHeader],
      by norm_num [scenarioHeader], by norm_num [scenarioHeader],
      by simp [scenarioHeader]⟩
  have hlen : (encodeFull (scenarioHeader mr)).length = HEADER_SIZE + 1 := by
    rw [encodeFull_length]
    simp [scenarioHeader, serCompactSize]
  exact ⟨hlen, by rw [hlen]; rfl, decodeFull_encodeFull _ hval⟩

/-- C6 witness: the amended scenario fact evaluated at merkleRoot zero. -/
theorem C6_scenario_witness :
    (0 : Nat) < 2 ^ 256 ∧
      ((encodeFull (scenarioHeader 0)).length = HEADER_SIZE + 1 ∧
        (encodeFull (scenarioHeader 0)).length = 141 ∧
        decodeFull (encodeFull (scenarioHeader 0)) = .ok (scenarioHeader 0)) :=
  ⟨by norm_num, C6_scenario 0 (by norm_num)⟩

/-! ### Claim C10 -/

/-- C10: constructing a block from a header and then projecting the block
back to a header yields the header exactly, in all eight fields, and the
constructed block's transaction list and Merkle tree cache are both
empty. -/
theorem C10_block_header_projection (h : CBlockHeader) :
    (CBlock.ofHeader h).GetBlockHeader = h ∧
      (CBlock.ofHeader h).vtx = [] ∧ (CBlock.ofHeader h).vMerkleTree = [] :=
  ⟨rfl, rfl, rfl⟩

/-! ### Claim C8 -/

/-- C8: the legacy variant supports the four codec operations over its
reduced field set.  Its full encoding is the 32-byte `headerHash`, the
32-byte nonce, and the length-marked solution, and decoding inverts it; its
restricted encoding is the 32-byte `headerHash` only and is the shared
leading byte segment of the full encoding; clear resets to the all-zero
value; and the null-check (modelled from the spec, since
`ABlockHeader::IsNull` is commented out in the source) holds exactly when
`headerHash` is zero, so it accepts a cleared header. -/
theorem C8_legacy_codec (h : ABlockHeader) (hv : AValidHeader h) :
    AdecodeFull (AencodeFull h) = .ok h ∧
      AencodeFull h = AencodeRestricted h ++
        (serLE 32 h.nNonce ++ (serCompactSize h.nSolution.length ++ h.nSolution)) ∧
      (AencodeRestricted h).length = 32 ∧
      h.SetNull = ⟨0, 0, []⟩ ∧
      h.SetNull.IsNull = true ∧
      (h.IsNull = true ↔ h.headerHash = 0) := by
  obtain ⟨h1, h2, h3⟩ := hv
  have e256 : (2 : Nat) ^ 256 = 256 ^ 32 := by norm_num
  rw [e256] at h1 h2
  refine ⟨?_, rfl, serLE_length 32 _, rfl, rfl, by simp [ABlockHeader.IsNull]⟩
  rw [AencodeFull, AdecodeFull]
  simp only [List.append_assoc]
  rw [readLE_serLE 32 _ _ h1, bind_ok]
  dsimp only
  rw [readLE_serLE 32 _ _ h2, bind_ok]
  dsimp only
  rw [readVarBytes_exact _ h3, bind_ok]

/-- C8 witness: the legacy codec facts evaluated at a small concrete
header. -/
theorem C8_legacy_codec_witness :
    AValidHeader ⟨5, 7, [1, 2]⟩ ∧
      (AdecodeFull (AencodeFull ⟨5, 7, [1, 2]⟩) = .ok ⟨5, 7, [1, 2]⟩ ∧
        AencodeFull ⟨5, 7, [1, 2]⟩ = AencodeRestricted ⟨5, 7, [1, 2]⟩ ++
          (serLE 32 (7 : Nat) ++ (serCompactSize 2 ++ [1, 2])) ∧
        (AencodeRestricted ⟨5, 7, [1, 2]⟩).length = 32 ∧
        ABlockHeader.SetNull ⟨5, 7, [1, 2]⟩ = ⟨0, 0, []⟩ ∧
        (ABlockHeader.SetNull ⟨5, 7, [1, 2]⟩).IsNull = true ∧
        (ABlockHeader.IsNull ⟨5, 7, [1, 2]⟩ = true ↔ (5 : Nat) = 0)) :=
  ⟨by decide, C8_legacy_codec ⟨5, 7, [1, 2]⟩ (by decide)⟩

/-! ### Claim C9 -/

/-- C9: the locator encoding writes the 4-byte serialization version scalar
exactly when the declared purpose is not hashing; in both modes the hash
vector follows; and a locator is null exactly when its hash sequence is
empty. -/
theorem C9_locator (sv : Int) (loc : CBlockLocator) :
    encodeLocator true sv loc = serHashVector loc.vHave ∧
      encodeLocator false sv loc = serInt32 sv ++ serHashVector loc.vHave ∧
      (serInt32 sv).length = 4 ∧
      (loc.IsNull = true ↔ loc.vHave = []) := by
  refine ⟨by simp [encodeLocator], rfl, serInt32_length sv, ?_⟩
  simp [CBlockLocator.IsNull, List.isEmpty_iff]

/-! ### Merkle engine lemmas -/

theorem nextLevel_length {α : Type} (f : α → α → α) :
    ∀ l : List α, (nextLevel f l).length = (l.length + 1) / 2
  | [] => by simp [nextLevel]
  | [_] => by simp [nextLevel]
  | _ :: _ :: rest => by
    simp only [nextLevel, List.length_cons, nextLevel_length f rest]
    omega

theorem buildLevelsAux_congr {α : Type} (f : α → α → α) :
    ∀ (fuel₁ fuel₂ : Nat) (l : List α), l.length ≤ fuel₁ + 1 →
      l.length ≤ fuel₂ + 1 → buildLevelsAux f fuel₁ l = buildLevelsAux f fuel₂ l := by
  intro fuel₁
  induction fuel₁ with
  | zero =>
    intro fuel₂ l h1 h2
    cases fuel₂ with
    | zero => rfl
    | succ f₂ => simp [buildLevelsAux, h1]
  | succ f₁ ih =>
    intro fuel₂ l h1 h2
    by_cases hs : l.length ≤ 1
    · cases fuel₂ with
      | zero => simp [buildLevelsAux, hs]
      | succ f₂ => simp [buildLevelsAux, hs]
    · obtain ⟨f₂, rfl⟩ : ∃ f₂, fuel₂ = f₂ + 1 := by
        cases fuel₂ with
        | zero => omega
        | succ f₂ => exact ⟨f₂, rfl⟩
      have hnl := nextLevel_length f l
      simp only [buildLevelsAux, if_neg hs]
      rw [ih f₂ (nextLevel f l) (by omega) (by omega)]

theorem buildLevels_small {α : Type} (f : α → α → α) (l : List α)
    (h : l.length ≤ 1) : buildLevels f l = [l] := by
  rw [buildLevels]
  rcases Nat.le_one_iff_eq_zero_or_eq_one.mp h with h0 | h1
  · rw [h0]
    simp [buildLevelsAux]
  · rw [h1]
    simp [buildLevelsAux, h]

theorem buildLevels_step {α : Type} (f : α → α → α) (l : List α)
    (h : 2 ≤ l.length) : buildLevels f l = l :: buildLevels f (nextLevel f l) := by
  rw [buildLevels, buildLevels]
  obtain ⟨k, hk⟩ : ∃ k, l.length = k + 1 := ⟨l.length - 1, by omega⟩
  rw [hk]
  simp only [buildLevelsAux, if_neg (by omega : ¬ l.length ≤ 1)]
  congr 1
  exact buildLevelsAux_congr f k (nextLevel f l).length (nextLevel f l)
    (by rw [nextLevel_length]; omega) (by omega)

theorem buildLevels_head {α : Type} (f : α → α → α) (l : List α) :
    ∃ rest, buildLevels f l = l :: rest := by
  by_cases h : l.length ≤ 1
  · exact ⟨[], buildLevels_small f l h⟩
  · exact ⟨_, buildLevels_step f l (by omega)⟩

theorem treeRoot_cons {α : Type} [Inhabited α] (lvl lvl₂ : List α)
    (rest : List (List α)) :
    treeRoot (lvl :: lvl₂ :: rest) = treeRoot (lvl₂ :: rest) := rfl

theorem nextLevel_getD {α : Type} [Inhabited α] (f : α → α → α) :
    ∀ (l : List α) (idx : Nat), idx < l.length →
      (nextLevel f l).getD (idx / 2) default =
        f (l.getD (2 * (idx / 2)) default)
          (l.getD (min (2 * (idx / 2) + 1) (l.length - 1)) default)
  | [], idx, h => by simp at h
  | [a], idx, h => by
    have h0 : idx = 0 := by simp at h; omega
    subst h0
    simp [nextLevel]
  | a :: b :: rest, idx, h => by
    by_cases h2 : idx < 2
    · have hd : idx / 2 = 0 := by omega
      rw [hd]
      have hmin : min (2 * 0 + 1) ((a :: b :: rest).length - 1) = 1 := by
        simp only [List.length_cons]
        omega
      rw [hmin]
      simp [nextLevel]
    · obtain ⟨idx', rfl⟩ : ∃ idx', idx = idx' + 2 := ⟨idx - 2, by omega⟩
      have hidx' : idx' < rest.length := by
        simp only [List.length_cons] at h
        omega
      have hrest : 1 ≤ rest.length := by omega
      have hdiv : (idx' + 2) / 2 = idx' / 2 + 1 := by omega
      have hminshift :
          min (2 * (idx' / 2 + 1) + 1) ((a :: b :: rest).length - 1) =
            min (2 * (idx' / 2) + 1) (rest.length - 1) + 1 + 1 := by
        simp only [List.length_cons]
        omega
      have h2m : 2 * (idx' / 2 + 1) = 2 * (idx' / 2) + 1 + 1 := by omega
      rw [hdiv, hminshift, h2m]
      have ih := nextLevel_getD f rest idx' hidx'
      simp only [nextLevel, List.getD_cons_succ]
      exact ih

theorem branchAux_cons {α : Type} [Inhabited α] (lvl : List α)
    (rest : List (List α)) (idx : Nat) (h : ¬ lvl.length ≤ 1) :
    branchAux (lvl :: rest) idx =
      lvl.getD (siblingIndex idx lvl.length) default :: branchAux rest (idx / 2) := by
  simp [branchAux, h]

theorem checkBranch_branchAux {α : Type} [Inhabited α] (f : α → α → α)
    (l : List α) (idx : Nat) (h : idx < l.length) :
    checkBranch f (l.getD idx default) (branchAux (buildLevels f l) idx) idx =
      treeRoot (buildLevels f l) := by
  by_cases hs : l.length ≤ 1
  · rw [buildLevels_small f l hs]
    have h0 : idx = 0 := by omega
    subst h0
    rw [show branchAux [l] 0 = [] from by simp [branchAux, hs]]
    rw [checkBranch]
    show l.getD 0 default = treeRoot [l]
    cases l with
    | nil => simp at h
    | cons a t => simp [treeRoot]
  · have h2 : 2 ≤ l.length := by omega
    rw [buildLevels_step f l h2]
    rw [branchAux_cons l _ idx hs]
    obtain ⟨rest, hrest⟩ := buildLevels_head f (nextLevel f l)
    rw [hrest, treeRoot_cons, ← hrest]
    rw [checkBranch]
    have hcomb :
        (if idx % 2 = 0
          then f (l.getD idx default) (l.getD (siblingIndex idx l.length) default)
          else f (l.getD (siblingIndex idx l.length) default) (l.getD idx default)) =
          (nextLevel f l).getD (idx / 2) default := by
      rw [nextLevel_getD f l idx h]
      by_cases hpar : idx % 2 = 0
      · rw [if_pos hpar]
        have e1 : 2 * (idx / 2) = idx := by omega
        have e2 : siblingIndex idx l.length = min (idx + 1) (l.length - 1) := by
          simp [siblingIndex, hpar]
        rw [e1, e2]
      · rw [if_neg hpar]
        have e1 : 2 * (idx / 2) = idx - 1 := by omega
        have e2 : siblingIndex idx l.length = idx - 1 := by
          simp [siblingIndex, hpar]
        have e3 : min (2 * (idx / 2) + 1) (l.length - 1) = idx := by omega
        rw [e3, e1, e2]
    rw [hcomb]
    exact checkBranch_branchAux f (nextLevel f l) (idx / 2)
      (by rw [nextLevel_length]; omega)
termination_by l.length
decreasing_by
  rw [nextLevel_length]
  omega

theorem levelMutated_iff {α : Type} [DecidableEq α] :
    ∀ l : List α, levelMutated l = true ↔
      ∃ i, i % 2 = 0 ∧ i + 1 < l.length ∧ l[i]? = l[i + 1]?
  | [] => by
    constructor
    · intro hF
      simp [levelMutated] at hF
    · rintro ⟨i, -, hi, -⟩
      simp at hi
  | [a] => by
    constructor
    · intro hF
      simp [levelMutated] at hF
    · rintro ⟨i, -, hi, -⟩
      simp at hi
  | a :: b :: rest => by
    rw [levelMutated]
    by_cases hab : a = b
    · rw [if_pos hab]
      constructor
      · intro _
        refine ⟨0, by norm_num, by simp only [List.length_cons]; omega, ?_⟩
        simp [hab]
      · intro _
        rfl
    · rw [if_neg hab]
      rw [levelMutated_iff rest]
      constructor
      · rintro ⟨i, hpar, hlt, heq⟩
        refine ⟨i + 2, by omega, by simp only [List.length_cons]; omega, ?_⟩
        simpa using heq
      · rintro ⟨i, hpar, hlt, heq⟩
        rcases i with - | - | i'
        · exfalso
          apply hab
          simpa using heq
        · exact absurd hpar (by norm_num)
        · refine ⟨i', by omega, by simp only [List.length_cons] at hlt; omega, ?_⟩
          simpa using heq

/-! ### Claim C3 -/

/-- C3: `buildTree` reports `mutationDetected = true` exactly when some level
of the retained tree has an even index `i` with `level[i] = level[i+1]`
(hence a level of length at least two); the flag is returned alongside the
root, which is still produced (the degenerate empty root for no leaves, the
head of the last level otherwise). -/
theorem C3_mutation_flag {α : Type} [DecidableEq α] [Inhabited α]
    (f : α → α → α) (emptyRoot : α) (leaves : List α) :
    ((buildTree f emptyRoot leaves).2.1 = true ↔
      ∃ lvl ∈ (buildTree f emptyRoot leaves).2.2, ∃ i, i % 2 = 0 ∧
        i + 1 < lvl.length ∧ lvl[i]? = lvl[i + 1]?) ∧
      (buildTree f emptyRoot leaves).1 =
        (if leaves.isEmpty then emptyRoot else treeRoot (buildLevels f leaves)) := by
  constructor
  · rw [buildTree]
    by_cases he : leaves.isEmpty = true
    · rw [if_pos he]
      simp
    · rw [if_neg he]
      simp only [List.any_eq_true]
      constructor
      · rintro ⟨lvl, hmem, hmut⟩
        exact ⟨lvl, hmem, (levelMutated_iff lvl).mp hmut⟩
      · rintro ⟨lvl, hmem, hex⟩
        exact ⟨lvl, hmem, (levelMutated_iff lvl).mpr hex⟩
  · rw [buildTree]
    by_cases he : leaves.isEmpty = true
    · rw [if_pos he, if_pos he]
    · rw [if_neg he, if_neg he]

/-! ### Claim C4 -/

/-- C4: for every non-empty leaf list and in-range leaf index `i`, the
branch returned by `getBranch` replayed by `checkBranch` from leaf `i`
reproduces the root of the built tree, with left/right fold order at each
level determined by the parity of the current index and the last element of
an odd-length level paired with itself. -/
theorem C4_branch_roundtrip {α : Type} [Inhabited α] (f : α → α → α)
    (leaves : List α) (i : Nat) (hi : i < leaves.length) :
    getBranch (buildLevels f leaves) (i : Int) =
      Except.ok (branchAux (buildLevels f leaves) i) ∧
      checkBranch f (leaves.getD i default) (branchAux (buildLevels f leaves) i) i =
        treeRoot (buildLevels f leaves) := by
  constructor
  · obtain ⟨rest, hrest⟩ := buildLevels_head f leaves
    rw [getBranch, hrest]
    have hcond : ¬ ((i : Int) < 0 ∨
        ((((leaves :: rest).headD []).length : Int) ≤ (i : Int))) := by
      simp only [List.headD_cons]
      omega
    rw [if_neg hcond, ← hrest]
    congr 1
  · exact checkBranch_branchAux f leaves i hi

/-- C4 witness: branch extraction and verification for leaf index 1 of a
three-leaf tree over a concrete combine function. -/
theorem C4_branch_roundtrip_witness :
    ((1 : Nat) < ([10, 20, 30] : List Nat).length) ∧
      (getBranch (buildLevels (fun a b : Nat => 3 * a + 5 * b + 7) [10, 20, 30])
          ((1 : Nat) : Int) =
        Except.ok (branchAux
          (buildLevels (fun a b : Nat => 3 * a + 5 * b + 7) [10, 20, 30]) 1) ∧
        checkBranch (fun a b : Nat => 3 * a + 5 * b + 7)
            (([10, 20, 30] : List Nat).getD 1 default)
            (branchAux (buildLevels (fun a b : Nat => 3 * a + 5 * b + 7)
              [10, 20, 30]) 1) 1 =
          treeRoot (buildLevels (fun a b : Nat => 3 * a + 5 * b + 7) [10, 20, 30])) :=
  ⟨by decide, C4_branch_roundtrip (fun a b => 3 * a + 5 * b + 7) [10, 20, 30] 1 (by decide)⟩

/-! ### Claim C7 -/

/-- C7: `getBranch` fails with `IndexOutOfRange` whenever the requested leaf
index is negative or at least the number of leaves, so no branch is returned
for such an index. -/
theorem C7_branch_out_of_range {α : Type} [Inhabited α] (f : α → α → α)
    (leaves : List α) (leafIndex : Int)
    (h : leafIndex < 0 ∨ (leaves.length : Int) ≤ leafIndex) :
    getBranch (buildLevels f leaves) leafIndex = .error .IndexOutOfRange := by
  obtain ⟨rest, hrest⟩ := buildLevels_head f leaves
  rw [getBranch, hrest, if_pos (by simp only [List.headD_cons]; exact h)]

/-- C7 witness: a negative index request on a two-leaf tree fails with
`IndexOutOfRange`. -/
theorem C7_branch_out_of_range_witness :
    ((-1 : Int) < 0 ∨ ((([1, 2] : List Nat).length : Int) ≤ (-1 : Int))) ∧
      getBranch (buildLevels (fun a b : Nat => a + b) [1, 2]) (-1) =
        .error .IndexOutOfRange :=
  ⟨by decide, C7_branch_out_of_range (fun a b => a + b) [1, 2] (-1) (by decide)⟩

end BlockSpec
